import Mathlib

/-!
# go-liveim: connection registry, broadcast and read loops

A shallow embedding of `server/server.go` and of the deadline handling of
`client/client.go`, followed by theorems about the embedded functions.

Conventions of the embedding

* A Go `string` is its sequence of bytes (`GoString`); `string(b)` for a byte
  slice `b` is therefore the identity.
* A `net.Conn` value is a handle (`Conn`); the `nil` interface value is `none`
  of `Option Conn`.
* The Go map `map[string]net.Conn` is the list of its entries in iteration
  order (`Users`).  A Go map holds one entry per key, which is `Users.WF`.
* Calls that act on a connection (`Close`, frame writes) are recorded in logs.
-/

namespace LiveIM

/-! ## Basic types -/

/-- A Go string: the sequence of its bytes. -/
abbrev GoString := List Nat

/-- The bytes of an ASCII literal. -/
def lit (s : String) : GoString := s.toList.map Char.toNat

/-- A non-nil `net.Conn` handle. -/
abbrev Conn := Nat

/-- The entries of `map[string]net.Conn`, in iteration order. -/
abbrev Users := List (GoString × Conn)

/-- The keys of the map. -/
def Users.keys (m : Users) : List GoString := m.map Prod.fst

/-- The connections stored in the map. -/
def Users.conns (m : Users) : List Conn := m.map Prod.snd

/-- A Go map holds at most one entry per key. -/
def Users.WF (m : Users) : Prop := m.keys.Nodup

instance (m : Users) : Decidable m.WF := by
  unfold Users.WF; infer_instance

/-- Go `v, ok := m[k]`: the value and `true`, or the zero value and `false`. -/
def mapGet : Users → GoString → Option Conn × Bool
  | [], _ => (none, false)
  | (k', v) :: rest, k => if k' = k then (some v, true) else mapGet rest k

/-- Go `m[k] = v`: overwrite the entry of `k`, or add one. -/
def mapSet : Users → GoString → Conn → Users
  | [], k, v => [(k, v)]
  | (k', v') :: rest, k, v =>
    if k' = k then (k, v) :: rest else (k', v') :: mapSet rest k v

/-- Go `delete(m, k)`: remove the entry of `k`; nothing happens when absent. -/
def mapDelete : Users → GoString → Users
  | [], _ => []
  | (k', v') :: rest, k =>
    if k' = k then rest else (k', v') :: mapDelete rest k

/-! ## The server (server/server.go) -/

/-- The fields of `Server` that the code reads or writes after construction;
`once` is whether `sync.Once` has already run its function. -/
structure Server where
  id : GoString
  addr : GoString
  once : Bool
  users : Users
  deriving DecidableEq, Repr

/-- Go `NewServer(id, addr)`. -/
def NewServer (id addr : GoString) : Server :=
  { id := id, addr := addr, once := false, users := [] }

/-- Go `Server.addUser`: the old entry (or `nil, false`), then the overwrite. -/
def Server.addUser (s : Server) (user : GoString) (conn : Conn) :
    (Option Conn × Bool) × Server :=
  let (old, ok) := mapGet s.users user
  ((old, ok), { s with users := mapSet s.users user conn })

/-- Go `Server.delUser`. -/
def Server.delUser (s : Server) (user : GoString) : Server :=
  { s with users := mapDelete s.users user }

/-! ## Frames (the part of github.com/gobwas/ws that server.go uses) -/

/-- Go `ws.OpCode` is a byte. -/
abbrev OpCode := Nat

def OpContinuation : OpCode := 0x0
def OpText : OpCode := 0x1
def OpBinary : OpCode := 0x2
def OpClose : OpCode := 0x8
def OpPing : OpCode := 0x9
def OpPong : OpCode := 0xa

/-- The masking key, `[4]byte`. -/
abbrev MaskKey := Fin 4 → Nat

/-- Go `ws.Header`. -/
structure Header where
  Fin : Bool
  Rsv : Nat
  OpCode : OpCode
  Masked : Bool
  Mask : MaskKey
  Length : Nat
  deriving DecidableEq

/-- Go `ws.Frame`. -/
structure Frame where
  Header : Header
  Payload : List Nat
  deriving DecidableEq

/-- Go `ws.NewFrame(op, fin, p)`: an unmasked frame of opcode `op`. -/
def NewFrame (op : OpCode) (fin : Bool) (p : List Nat) : Frame :=
  { Header := { Fin := fin, Rsv := 0, OpCode := op, Masked := false,
                Mask := fun _ => 0, Length := p.length },
    Payload := p }

/-- Go `ws.NewTextFrame(p)`. -/
def NewTextFrame (p : List Nat) : Frame := NewFrame OpText true p

/-- Go `ws.Cipher(payload, mask, offset)`: byte `i` of the payload is XORed with
`mask[(offset + i) % 4]`. -/
def Cipher : List Nat → MaskKey → Nat → List Nat
  | [], _, _ => []
  | b :: rest, mask, offset =>
    (b ^^^ mask ⟨offset % 4, Nat.mod_lt _ (by decide)⟩) :: Cipher rest mask (offset + 1)

/-- The masking of the wire format in the words of the specification: byte `i`
is XORed with `k[i mod 4]`. -/
def xorMasked (p : List Nat) (k : MaskKey) : List Nat :=
  p.enum.map (fun ib => ib.2 ^^^ k ⟨ib.1 % 4, Nat.mod_lt _ (by decide)⟩)

/-! ## Server.readLoop -/

/-- What one call of `ws.ReadFrame(conn)` gives: a frame or an error. -/
inductive ReadResult where
  | frame (f : Frame)
  | fail (err : GoString)
  deriving DecidableEq

/-- The two errors that `Server.readLoop` builds with `fmt.Errorf`. -/
inductive LoopError where
  | readFrameFail (userId : GoString) (err : GoString)
  | remoteClose (userId : GoString)
  deriving DecidableEq, Repr

/-- What the read loop does to the outside while it runs. -/
inductive Action where
  /-- Go `wsutil.WriteServerMessage(conn, op, p)`: the frame `NewFrame(op, true, p)`
  is written to `conn`. -/
  | write (conn : Conn) (frame : Frame)
  /-- Go `go s.handle(userId, message)`. -/
  | goHandle (userId : GoString) (message : GoString)
  deriving DecidableEq

/-- One pass through the body of the `for` of `Server.readLoop`: either the
function returns an error, or the loop goes on after some actions. -/
inductive Iter where
  | ret (err : LoopError)
  | cont (acts : List Action)
  deriving DecidableEq

/-- The body of the `for` of `Server.readLoop` on the result of `ws.ReadFrame`.
The error of the Pong write is logged only, so it plays no role here. -/
def readLoopBody (userId : GoString) (conn : Conn) : ReadResult → Iter
  | .fail err => .ret (.readFrameFail userId err)
  | .frame frame =>
    if frame.Header.OpCode = OpClose then
      .ret (.remoteClose userId)
    else if frame.Header.OpCode = OpPing then
      .cont [.write conn (NewFrame OpPong true [])]
    else
      let payload :=
        if frame.Header.Masked then Cipher frame.Payload frame.Header.Mask 0
        else frame.Payload
      if frame.Header.OpCode = OpText then
        .cont [.goHandle userId payload]
      else
        .cont []

/-- How a run of the read loop on finitely many read results ends. -/
inductive Outcome where
  /-- Go `readLoop` has returned this Go `error` (`none` is `nil`). -/
  | returned (err : Option LoopError)
  /-- Go `readLoop` is blocked in `ws.ReadFrame`. -/
  | reading
  deriving DecidableEq

/-- Go `Server.readLoop(userId, conn)` on the results that the successive calls of
`ws.ReadFrame(conn)` give: the actions in order, and how the run ends. -/
def Server.readLoop (userId : GoString) (conn : Conn) : List ReadResult → List Action × Outcome
  | [] => ([], .reading)
  | r :: rest =>
    match readLoopBody userId conn r with
    | .ret err => ([], .returned (some err))
    | .cont acts =>
      let (more, out) := Server.readLoop userId conn rest
      (acts ++ more, out)

/-! ## Server.handle -/

/-- One call of `Server.writeText` made by `handle`: the entry it is for, the
frame given to `ws.WriteFrame`, and whether that call returned an error. -/
structure WriteCall where
  user : GoString
  conn : Conn
  frame : Frame
  err : Bool
  deriving DecidableEq

/-- Go `fmt.Sprintf("recv %s, from %s", message, userId)`. -/
def broadcastMsg (message userId : GoString) : GoString :=
  lit "recv " ++ message ++ lit ", from " ++ userId

/-- Go `Server.writeText(conn, message)` for the entry `user`; `fails` tells
whether `ws.WriteFrame` returns an error. -/
def Server.writeText (fails : GoString → Conn → Bool) (user : GoString) (conn : Conn)
    (message : GoString) : WriteCall :=
  { user := user, conn := conn, frame := NewTextFrame message, err := fails user conn }

/-- The `for user, conn := range s.users` of `Server.handle`. -/
def handleRange (fails : GoString → Conn → Bool) (userId msg : GoString) : Users → List WriteCall
  | [] => []
  | (user, conn) :: rest =>
    if user = userId then handleRange fails userId msg rest
    else Server.writeText fails user conn msg :: handleRange fails userId msg rest

/-- Go `Server.handle(userId, message)`: the writes it makes and the server
afterwards. -/
def Server.handle (s : Server) (fails : GoString → Conn → Bool) (userId message : GoString) :
    List WriteCall × Server :=
  (handleRange fails userId (broadcastMsg message userId) s.users, s)

/-- The frames that arrive on `c`: those of the calls to `c` without error. -/
def received (calls : List WriteCall) (c : Conn) : List Frame :=
  (calls.filter (fun w => decide (w.conn = c) && !w.err)).map (fun w => w.frame)

/-! ## The handler of Server.Start, and Server.Shutdown -/

/-- The three places of server.go that call `Close` on a connection. -/
inductive CloseSite where
  /-- Go `oldConn.Close()`, step 3 of the handler. -/
  | kickoff
  /-- Go `conn.Close()`, step 5 of the handler. -/
  | closing
  /-- Go `s.users[i].Close()` in `Shutdown`. -/
  | shutdown
  deriving DecidableEq, Repr

/-- The server together with the connections: every `Close` call so far, the
handlers whose goroutine is in `readLoop`, and those that have run step 5. -/
structure Sys where
  server : Server
  closeLog : List (Conn × CloseSite)
  reading : List (GoString × Conn)
  closed : List (GoString × Conn)
  deriving DecidableEq

/-- A `Close` call on a `net.Conn` value; the code never makes one on `nil`. -/
def closeCall (log : List (Conn × CloseSite)) (c : Option Conn) (site : CloseSite) :
    List (Conn × CloseSite) :=
  match c with
  | some c => log ++ [(c, site)]
  | none => log

/-- Step 3 of the handler: `addUser`, then `Close` on the old connection when
`ok`; then the goroutine of steps 4 and 5 is started. -/
def Sys.register (st : Sys) (userId : GoString) (conn : Conn) : Sys :=
  let ((oldConn, ok), s) := st.server.addUser userId conn
  { st with
    server := s
    closeLog := if ok then closeCall st.closeLog oldConn .kickoff else st.closeLog
    reading := st.reading ++ [(userId, conn)] }

/-- The running handlers without the handler `h`, whose goroutine ends. -/
def dropHandler : List (GoString × Conn) → GoString × Conn → List (GoString × Conn)
  | [], _ => []
  | x :: rest, h => if x = h then rest else x :: dropHandler rest h

/-- Step 5 of the handler, after `readLoop` has returned: `conn.Close()`, then
`s.delUser(userId)`. -/
def Sys.closing (st : Sys) (userId : GoString) (conn : Conn) : Sys :=
  { st with
    server := st.server.delUser userId
    closeLog := closeCall st.closeLog (some conn) .closing
    reading := dropHandler st.reading (userId, conn)
    closed := st.closed ++ [(userId, conn)] }

/-- The `for i := range s.users` of `Shutdown`: `s.users[i].Close()` for every
key `i`. -/
def shutdownRange (users : Users) (log : List (Conn × CloseSite)) : List GoString →
    List (Conn × CloseSite)
  | [] => log
  | i :: rest => shutdownRange users (closeCall log (mapGet users i).1 .shutdown) rest

/-- Go `Server.Shutdown`: under `once`, close the connection of every entry. -/
def Sys.Shutdown (st : Sys) : Sys :=
  if st.server.once then st
  else
    { st with
      server := { st.server with once := true }
      closeLog := shutdownRange st.server.users st.closeLog st.server.users.keys }

/-- The events of the server. -/
inductive Event where
  /-- A client has upgraded with the non-empty user id `userId`; `conn` is the
  new connection. -/
  | connect (userId : GoString) (conn : Conn)
  /-- The `readLoop` of the handler of `conn` has returned. -/
  | loopExit (userId : GoString) (conn : Conn)
  /-- Go `Shutdown` is called. -/
  | shutdown
  deriving DecidableEq

/-- The connections that have a handler. -/
def Sys.known (st : Sys) : List Conn :=
  st.reading.map Prod.snd ++ st.closed.map Prod.snd

/-- When an event can happen: an upgrade gives a connection that no handler
has had before and passes the `userId == ""` check; a `readLoop` that returns
is one that is running. -/
def Sys.enabled (st : Sys) : Event → Prop
  | .connect userId conn => userId ≠ [] ∧ conn ∉ st.known
  | .loopExit userId conn => (userId, conn) ∈ st.reading
  | .shutdown => True

instance (st : Sys) (e : Event) : Decidable (st.enabled e) := by
  cases e <;> unfold Sys.enabled <;> infer_instance

/-- The effect of an event. -/
def Sys.step (st : Sys) : Event → Sys
  | .connect userId conn => st.register userId conn
  | .loopExit userId conn => st.closing userId conn
  | .shutdown => st.Shutdown

/-- The effect of a sequence of events. -/
def Sys.run (st : Sys) : List Event → Sys
  | [] => st
  | e :: rest => (st.step e).run rest

/-- Every event of the sequence can happen when its turn comes. -/
def Sys.valid (st : Sys) : List Event → Prop
  | [] => True
  | e :: rest => st.enabled e ∧ (st.step e).valid rest

instance Sys.decValid (st : Sys) (es : List Event) : Decidable (st.valid es) := by
  induction es generalizing st with
  | nil => unfold Sys.valid; infer_instance
  | cons e rest ih =>
    unfold Sys.valid
    have := ih (st.step e)
    infer_instance

/-- The system after `NewServer`: nothing connected, nothing closed. -/
def Sys.init (id addr : GoString) : Sys :=
  { server := NewServer id addr, closeLog := [], reading := [], closed := [] }

/-- The number of `Close` calls made on `c`. -/
def Sys.closeCount (st : Sys) (c : Conn) : Nat :=
  (st.closeLog.filter (fun e => decide (e.1 = c))).length

/-- The number of `Close` calls made on `c` at one place of the code. -/
def Sys.closeCountAt (st : Sys) (c : Conn) (site : CloseSite) : Nat :=
  st.closeLog.count (c, site)

/-! ## The client (client/client.go): read deadline of the connection -/

/-- Go `time.Second`, a `time.Duration` in nanoseconds. -/
def Second : Nat := 1000000000

/-- The `handler` of the client, with the read deadline of `h.conn` (an instant
in nanoseconds, `none` while no deadline is set) and the payloads sent to
`h.recv`. -/
structure handler where
  heartbeat : Nat
  readDeadline : Option Nat
  recv : List (List Nat)
  deriving DecidableEq, Repr

/-- Go `NewHandler(conn)`; no deadline is set yet. -/
def NewHandler : handler :=
  { heartbeat := Second * 5, readDeadline := none, recv := [] }

/-- The start of `handler.readLoop` at the instant `now`:
`SetReadDeadline(time.Now().Add(h.heartbeat * 3))`. -/
def handler.readLoopStart (h : handler) (now : Nat) : handler :=
  { h with readDeadline := some (now + h.heartbeat * 3) }

/-- One pass through the `for` of `handler.readLoop` on a frame read at the
instant `now`: `none` when the loop returns (Close), else the handler after.
A Pong sets the deadline in the `if` and again in the `switch`. -/
def handler.readLoopBody (h : handler) (now : Nat) (frame : Frame) : Option handler :=
  let h1 : handler :=
    if frame.Header.OpCode = OpPong then
      { h with readDeadline := some (now + h.heartbeat * 3) }
    else h
  if frame.Header.OpCode = OpPong then
    some { h1 with readDeadline := some (now + h1.heartbeat * 3) }
  else if frame.Header.OpCode = OpClose then
    none
  else if frame.Header.OpCode = OpText then
    some { h1 with recv := h1.recv ++ [frame.Payload] }
  else
    some h1

/-- One tick of `handler.heartbeatLoop` at the instant `now`:
`SetReadDeadline(time.Now().Add(time.Second * 10))`, then the Ping. -/
def handler.heartbeatTick (h : handler) (now : Nat) : handler :=
  { h with readDeadline := some (now + Second * 10) }

/-- What happens on the client while the read loop runs. -/
inductive ClientEvent where
  /-- Go `ws.ReadFrame` gives a frame at the instant `now`. -/
  | frame (now : Nat) (f : Frame)
  /-- The ticker of the heartbeat loop fires at the instant `now`. -/
  | tick (now : Nat)
  deriving DecidableEq

/-- The client after a sequence of events, `none` once the read loop has
returned. -/
def handler.run (h : handler) : List ClientEvent → Option handler
  | [] => some h
  | .frame now f :: rest =>
    match h.readLoopBody now f with
    | none => none
    | some h1 => h1.run rest
  | .tick now :: rest => (h.heartbeatTick now).run rest

/-- A `ws.ReadFrame` that is waiting at the instant `now` fails with a timeout
when the read deadline has passed. -/
def handler.readTimedOut (h : handler) (now : Nat) : Bool :=
  match h.readDeadline with
  | some deadline => decide (deadline < now)
  | none => false

/-- The instants at which a Pong was received, among the events. -/
def pongTimes : List ClientEvent → List Nat
  | [] => []
  | .frame now f :: rest =>
    if f.Header.OpCode = OpPong then now :: pongTimes rest else pongTimes rest
  | .tick _ :: rest => pongTimes rest

/-- The first `n` ticks of the heartbeat loop of `h` when its ticker starts at
the instant 0: the instants `h.heartbeat`, `2 * h.heartbeat`, and so on. -/
def silentTicks (h : handler) (n : Nat) : List ClientEvent :=
  (List.range n).map (fun i => ClientEvent.tick (h.heartbeat * (i + 1)))

/-- A read result on which `Server.readLoop` returns: a read error or a Close
frame. -/
def ReadResult.ends : ReadResult → Bool
  | .fail _ => true
  | .frame f => decide (f.Header.OpCode = OpClose)

/-- The error that `Server.readLoop` returns on a read result that ends it. -/
def ReadResult.error (userId : GoString) : ReadResult → LoopError
  | .fail err => .readFrameFail userId err
  | .frame _ => .remoteClose userId

/-- The text frame that `handle` writes for `message` of `userId`. -/
def broadcastFrame (message userId : GoString) : Frame :=
  NewTextFrame (broadcastMsg message userId)

/-- What holds of every system reached from `Sys.init` by events that can
happen: the registry is a map whose connections are distinct and have a
handler, no connection has two handlers, and the `Close` calls of each place
of the code are accounted for. -/
structure Sys.Inv (st : Sys) : Prop where
  wf : st.server.users.WF
  conns_nodup : st.server.users.conns.Nodup
  known_nodup : st.known.Nodup
  conns_known : ∀ c ∈ st.server.users.conns, c ∈ st.known
  closing_count : ∀ c, st.closeCountAt c .closing = (st.closed.map Prod.snd).count c
  kickoff_le : ∀ c, st.closeCountAt c .kickoff ≤ 1
  kickoff_zero : ∀ c, (c ∈ st.server.users.conns ∨ c ∉ st.known) →
    st.closeCountAt c .kickoff = 0
  shutdown_le : ∀ c, st.closeCountAt c .shutdown ≤ 1
  shutdown_zero : st.server.once = false → ∀ c, st.closeCountAt c .shutdown = 0

/-! ## Lemmas on the map -/

theorem mapGet_mapSet_self (m : Users) (k : GoString) (v : Conn) :
    mapGet (mapSet m k v) k = (some v, true) := by
  induction m with
  | nil => simp [mapSet, mapGet]
  | cons e rest ih =>
    obtain ⟨k', v'⟩ := e
    by_cases h : k' = k
    · simp [mapSet, mapGet, h]
    · simp [mapSet, mapGet, h, ih]

theorem mapGet_mapSet_ne (m : Users) (k k' : GoString) (v : Conn) (h : k' ≠ k) :
    mapGet (mapSet m k v) k' = mapGet m k' := by
  induction m with
  | nil => simp [mapSet, mapGet, Ne.symm h]
  | cons e rest ih =>
    obtain ⟨k0, v0⟩ := e
    by_cases h0 : k0 = k
    · subst h0
      simp [mapSet, mapGet, Ne.symm h]
    · by_cases h1 : k0 = k'
      · subst h1
        simp [mapSet, mapGet, h0]
      · simp [mapSet, mapGet, h0, h1, ih]

theorem mapGet_absent_iff (m : Users) (k : GoString) :
    mapGet m k = (none, false) ↔ k ∉ m.keys := by
  induction m with
  | nil => simp [mapGet, Users.keys]
  | cons e rest ih =>
    obtain ⟨k0, v0⟩ := e
    by_cases h0 : k0 = k
    · simp [mapGet, Users.keys, h0]
    · have ih' : mapGet rest k = (none, false) ↔ k ∉ List.map Prod.fst rest := ih
      simp [mapGet, Users.keys, h0, ih', Ne.symm h0]

theorem mapGet_mem_of_present (m : Users) (k : GoString) (v : Conn) :
    mapGet m k = (some v, true) → (k, v) ∈ m := by
  induction m with
  | nil => simp [mapGet]
  | cons e rest ih =>
    obtain ⟨k0, v0⟩ := e
    by_cases h0 : k0 = k
    · subst h0
      simp [mapGet]
      intro h; exact Or.inl h.symm
    · simp [mapGet, h0]
      intro h; exact Or.inr (ih h)

theorem mapGet_ok_iff (m : Users) (k : GoString) :
    (mapGet m k).2 = true ↔ k ∈ m.keys := by
  induction m with
  | nil => simp [mapGet, Users.keys]
  | cons e rest ih =>
    obtain ⟨k0, v0⟩ := e
    have ih' : (mapGet rest k).2 = true ↔ k ∈ List.map Prod.fst rest := ih
    by_cases h0 : k0 = k
    · simp [mapGet, Users.keys, h0]
    · simp [mapGet, Users.keys, h0, ih', Ne.symm h0]

theorem mapGet_fst_isSome (m : Users) (k : GoString) :
    (mapGet m k).1.isSome = (mapGet m k).2 := by
  induction m with
  | nil => simp [mapGet]
  | cons e rest ih =>
    obtain ⟨k0, v0⟩ := e
    by_cases h0 : k0 = k
    · simp [mapGet, h0]
    · simp [mapGet, h0, ih]

theorem mapDelete_keys_subset (m : Users) (k k' : GoString)
    (h : k' ∈ (mapDelete m k).keys) : k' ∈ m.keys := by
  induction m with
  | nil => simpa [mapDelete] using h
  | cons e rest ih =>
    obtain ⟨k0, v0⟩ := e
    by_cases h0 : k0 = k
    · simp [mapDelete, h0, Users.keys] at h ⊢
      exact Or.inr h
    · simp only [mapDelete, h0, if_false, Users.keys, List.map_cons, List.mem_cons] at h ⊢
      rcases h with h | h
      · exact Or.inl h
      · exact Or.inr (ih h)

theorem mapDelete_wf (m : Users) (k : GoString) (h : m.WF) : (mapDelete m k).WF := by
  induction m with
  | nil => simpa [mapDelete] using h
  | cons e rest ih =>
    obtain ⟨k0, v0⟩ := e
    have h' : k0 ∉ Users.keys rest ∧ (Users.keys rest).Nodup := by
      simpa [Users.WF, Users.keys] using h
    by_cases h0 : k0 = k
    · simpa [mapDelete, h0, Users.WF] using h'.2
    · have hr : (mapDelete rest k).WF := ih h'.2
      have hn : k0 ∉ (mapDelete rest k).keys :=
        fun hc => h'.1 (mapDelete_keys_subset rest k k0 hc)
      simp only [mapDelete, h0, if_false, Users.WF, Users.keys, List.map_cons,
        List.nodup_cons]
      exact ⟨hn, hr⟩

theorem mapDelete_of_absent (m : Users) (k : GoString) (h : k ∉ m.keys) :
    mapDelete m k = m := by
  induction m with
  | nil => simp [mapDelete]
  | cons e rest ih =>
    obtain ⟨k0, v0⟩ := e
    have h' : ¬ k = k0 ∧ k ∉ Users.keys rest := by
      simpa [Users.keys] using h
    have h0 : ¬ k0 = k := fun hc => h'.1 hc.symm
    simp [mapDelete, h0, ih h'.2]

theorem mapDelete_absent (m : Users) (k : GoString) (h : m.WF) :
    k ∉ (mapDelete m k).keys := by
  induction m with
  | nil => simp [mapDelete, Users.keys]
  | cons e rest ih =>
    obtain ⟨k0, v0⟩ := e
    have h' : k0 ∉ Users.keys rest ∧ (Users.keys rest).Nodup := by
      simpa [Users.WF, Users.keys] using h
    by_cases h0 : k0 = k
    · subst h0
      simpa [mapDelete] using h'.1
    · have := ih h'.2
      simp only [mapDelete, h0, if_false, Users.keys, List.map_cons, List.mem_cons,
        not_or]
      exact ⟨fun hc => h0 hc.symm, this⟩

theorem mapGet_mapDelete_ne (m : Users) (k k' : GoString) (h : k' ≠ k) :
    mapGet (mapDelete m k) k' = mapGet m k' := by
  induction m with
  | nil => simp [mapDelete]
  | cons e rest ih =>
    obtain ⟨k0, v0⟩ := e
    by_cases h0 : k0 = k
    · subst h0
      simp [mapDelete, mapGet, Ne.symm h]
    · by_cases h1 : k0 = k'
      · subst h1
        simp [mapDelete, mapGet, h0]
      · simp [mapDelete, mapGet, h0, h1, ih]

theorem mapSet_keys_of_mem (m : Users) (k : GoString) (v : Conn) (h : k ∈ m.keys) :
    (mapSet m k v).keys = m.keys := by
  induction m with
  | nil => simp [Users.keys] at h
  | cons e rest ih =>
    obtain ⟨k0, v0⟩ := e
    by_cases h0 : k0 = k
    · simp [mapSet, h0, Users.keys]
    · have hr : k ∈ Users.keys rest := by
        have : k = k0 ∨ k ∈ Users.keys rest := by simpa [Users.keys] using h
        rcases this with h1 | h1
        · exact absurd h1.symm h0
        · exact h1
      have := ih hr
      simp only [Users.keys] at this
      simp [mapSet, h0, Users.keys, this]

theorem mapSet_keys_of_not_mem (m : Users) (k : GoString) (v : Conn) (h : k ∉ m.keys) :
    (mapSet m k v).keys = m.keys ++ [k] := by
  induction m with
  | nil => simp [mapSet, Users.keys]
  | cons e rest ih =>
    obtain ⟨k0, v0⟩ := e
    have h' : ¬ k = k0 ∧ k ∉ Users.keys rest := by simpa [Users.keys] using h
    have h0 : ¬ k0 = k := fun hc => h'.1 hc.symm
    have := ih h'.2
    simp only [Users.keys] at this
    simp [mapSet, h0, Users.keys, this]

theorem mapSet_wf (m : Users) (k : GoString) (v : Conn) (h : m.WF) : (mapSet m k v).WF := by
  by_cases hk : k ∈ m.keys
  · simpa [Users.WF, mapSet_keys_of_mem m k v hk] using h
  · simp only [Users.WF, mapSet_keys_of_not_mem m k v hk]
    have h1 : m.keys.Nodup := h
    exact List.Nodup.append h1 (List.nodup_singleton k) (by simpa using hk)

theorem mapGet_of_mem (m : Users) (k : GoString) (v : Conn) (hwf : m.WF) (h : (k, v) ∈ m) :
    mapGet m k = (some v, true) := by
  induction m with
  | nil => simp at h
  | cons e rest ih =>
    obtain ⟨k0, v0⟩ := e
    have h' : k0 ∉ Users.keys rest ∧ (Users.keys rest).Nodup := by
      simpa [Users.WF, Users.keys] using hwf
    rcases List.mem_cons.mp h with h1 | h1
    · cases h1
      simp [mapGet]
    · have hk : k ∈ Users.keys rest := List.mem_map.mpr ⟨(k, v), h1, rfl⟩
      have h0 : ¬ k0 = k := fun hc => h'.1 (hc ▸ hk)
      simp [mapGet, h0, ih h'.2 h1]

/-! ## The registry: addUser and delUser -/

/-- C1: after `addUser(u, c)` the registry maps `u` to `c`, the entry of every
other user id is as before, and the call returns `(old, true)` when `u` was
mapped to `old` and `(nil, false)` when `u` was absent; nothing else of the
server changes. -/
theorem addUser_spec (s : Server) (u : GoString) (c : Conn) :
    mapGet (s.addUser u c).2.users u = (some c, true) ∧
    (∀ u', u' ≠ u → mapGet (s.addUser u c).2.users u' = mapGet s.users u') ∧
    (∀ old, mapGet s.users u = (some old, true) → (s.addUser u c).1 = (some old, true)) ∧
    (u ∉ s.users.keys → (s.addUser u c).1 = (none, false)) ∧
    (s.addUser u c).2 = { s with users := (s.addUser u c).2.users } := by
  refine ⟨mapGet_mapSet_self _ _ _, fun u' hu => mapGet_mapSet_ne _ _ _ _ hu, ?_, ?_, rfl⟩
  · intro old h
    simp [Server.addUser, h]
  · intro h
    have := (mapGet_absent_iff s.users u).mpr h
    simp [Server.addUser, this]

/-- C1 at a registry with two users: a reconnect of alice returns her old
connection, a first connect of carol returns `(nil, false)`. -/
theorem addUser_spec_witness :
    (mapGet (({ NewServer [] [] with users := [(lit "alice", 1), (lit "bob", 2)] } : Server).addUser
        (lit "alice") 3).2.users (lit "bob") = (some 2, true)) ∧
    (({ NewServer [] [] with users := [(lit "alice", 1), (lit "bob", 2)] } : Server).addUser
        (lit "alice") 3).1 = (some 1, true) ∧
    (({ NewServer [] [] with users := [(lit "alice", 1), (lit "bob", 2)] } : Server).addUser
        (lit "carol") 3).1 = (none, false) := by
  refine ⟨?_, ?_, ?_⟩
  · rw [(addUser_spec _ (lit "alice") 3).2.1 (lit "bob") (by decide)]
    decide
  · exact (addUser_spec _ (lit "alice") 3).2.2.1 1 (by decide)
  · exact (addUser_spec _ (lit "carol") 3).2.2.2.1 (by decide)

/-- C6: after `delUser(u)` the registry has no entry for `u` and the entry of
every other user id is as before; when `u` was absent the server is unchanged;
and a second `delUser(u)` changes nothing more. -/
theorem delUser_spec (s : Server) (u : GoString) (hwf : s.users.WF) :
    u ∉ (s.delUser u).users.keys ∧
    mapGet (s.delUser u).users u = (none, false) ∧
    (∀ u', u' ≠ u → mapGet (s.delUser u).users u' = mapGet s.users u') ∧
    (u ∉ s.users.keys → s.delUser u = s) ∧
    (s.delUser u).delUser u = s.delUser u ∧
    (s.delUser u).users.WF := by
  have habs : u ∉ (s.delUser u).users.keys := mapDelete_absent s.users u hwf
  refine ⟨habs, (mapGet_absent_iff _ _).mpr habs,
    fun u' hu => mapGet_mapDelete_ne _ _ _ hu, ?_, ?_, mapDelete_wf _ _ hwf⟩
  · intro h
    simp [Server.delUser, mapDelete_of_absent s.users u h]
  · have := mapDelete_of_absent (s.delUser u).users u habs
    simp only [Server.delUser] at this ⊢
    rw [this]

/-- C6 at a registry with two users: deleting bob keeps alice, and deleting
the absent carol leaves the server as it was. -/
theorem delUser_spec_witness :
    (({ NewServer [] [] with users := [(lit "alice", 1), (lit "bob", 2)] } : Server).delUser
        (lit "bob")).users = [(lit "alice", 1)] ∧
    (({ NewServer [] [] with users := [(lit "alice", 1), (lit "bob", 2)] } : Server).delUser
        (lit "carol")) = { NewServer [] [] with users := [(lit "alice", 1), (lit "bob", 2)] } := by
  refine ⟨by decide, ?_⟩
  exact (delUser_spec _ (lit "carol") (by decide)).2.2.2.1 (by decide)

/-! ## Broadcast: Server.handle -/

theorem handleRange_eq (fails : GoString → Conn → Bool) (userId msg : GoString) (m : Users) :
    handleRange fails userId msg m =
      (m.filter (fun e => !decide (e.1 = userId))).map
        (fun e => Server.writeText fails e.1 e.2 msg) := by
  induction m with
  | nil => simp [handleRange]
  | cons e rest ih =>
    obtain ⟨k0, v0⟩ := e
    by_cases h0 : k0 = userId
    · simp [handleRange, h0, ih]
    · simp [handleRange, h0, ih]

theorem filter_user_of_wf (m : Users) (u : GoString) (c : Conn) (hwf : m.WF)
    (h : (u, c) ∈ m) : m.filter (fun e => decide (e.1 = u)) = [(u, c)] := by
  induction m with
  | nil => simp at h
  | cons e rest ih =>
    obtain ⟨k0, v0⟩ := e
    have h' : k0 ∉ Users.keys rest ∧ (Users.keys rest).Nodup := by
      simpa [Users.WF, Users.keys] using hwf
    rcases List.mem_cons.mp h with h1 | h1
    · cases h1
      have : rest.filter (fun e => decide (e.1 = u)) = [] := by
        rw [List.filter_eq_nil_iff]
        intro e he hc
        have : e.1 = u := by simpa using hc
        exact h'.1 (this ▸ List.mem_map.mpr ⟨e, he, rfl⟩)
      simp [List.filter_cons, this]
    · have hk : u ∈ Users.keys rest := List.mem_map.mpr ⟨(u, c), h1, rfl⟩
      have h0 : ¬ k0 = u := fun hc => h'.1 (hc ▸ hk)
      simp [List.filter_cons, h0, ih h'.2 h1]

theorem handleRange_per_user (fails : GoString → Conn → Bool) (userId msg : GoString)
    (m : Users) (hwf : m.WF) (u : GoString) (c : Conn) (h : (u, c) ∈ m) (hu : u ≠ userId) :
    (handleRange fails userId msg m).filter (fun w => decide (w.user = u)) =
      [Server.writeText fails u c msg] := by
  rw [handleRange_eq, List.filter_map, List.filter_filter]
  have hfun : (fun e : GoString × Conn =>
      ((fun w : WriteCall => decide (w.user = u)) ∘
        fun e => Server.writeText fails e.1 e.2 msg) e && !decide (e.1 = userId)) =
      (fun e => decide (e.1 = u)) := by
    funext e
    by_cases he : e.1 = u
    · have : ¬ e.1 = userId := fun hc => hu (he ▸ hc)
      simp [Server.writeText, he, hu]
    · simp [Server.writeText, he]
  rw [hfun, filter_user_of_wf m u c hwf h]
  rfl

/-- C4: when no write fails, `handle(s, m)` makes exactly one write for every
registry entry whose user id differs from `s`, to the connection of that entry
and without error; it makes no write for the entry of `s`; and every frame
written is a text frame with payload `"recv " ++ m ++ ", from " ++ s`. -/
theorem handle_fanout (s : Server) (userId message : GoString) (hwf : s.users.WF) :
    (∀ u c, (u, c) ∈ s.users → u ≠ userId →
      ((s.handle (fun _ _ => false) userId message).1.filter
          (fun w => decide (w.user = u))) =
        [{ user := u, conn := c, frame := broadcastFrame message userId, err := false }]) ∧
    (∀ w ∈ (s.handle (fun _ _ => false) userId message).1,
      w.user ≠ userId ∧ (w.user, w.conn) ∈ s.users ∧ w.err = false ∧
      w.frame.Header.OpCode = OpText ∧
      w.frame.Payload = lit "recv " ++ message ++ lit ", from " ++ userId) := by
  constructor
  · intro u c h hu
    exact handleRange_per_user _ userId _ s.users hwf u c h hu
  · intro w hw
    simp only [Server.handle, handleRange_eq, List.mem_map, List.mem_filter] at hw
    obtain ⟨e, ⟨he, hne⟩, rfl⟩ := hw
    refine ⟨by simpa [Server.writeText] using hne, by simpa [Server.writeText] using he,
      rfl, rfl, rfl⟩

/-- C4 on the registry of alice and bob: when alice sends "hi", the only write
is the frame "recv hi, from alice" to the connection of bob, and nothing
arrives on the connection of alice. -/
theorem handle_fanout_witness :
    (({ NewServer [] [] with users := [(lit "alice", 1), (lit "bob", 2)] } : Server).handle
        (fun _ _ => false) (lit "alice") (lit "hi")).1.filter
        (fun w => decide (w.user = lit "bob")) =
      [{ user := lit "bob", conn := 2, frame := NewTextFrame (lit "recv hi, from alice"),
         err := false }] ∧
    received (({ NewServer [] [] with users := [(lit "alice", 1), (lit "bob", 2)] } : Server).handle
        (fun _ _ => false) (lit "alice") (lit "hi")).1 1 = [] ∧
    received (({ NewServer [] [] with users := [(lit "alice", 1), (lit "bob", 2)] } : Server).handle
        (fun _ _ => false) (lit "alice") (lit "hi")).1 2 =
      [NewTextFrame (lit "recv hi, from alice")] :=
  ⟨(handle_fanout { NewServer [] [] with users := [(lit "alice", 1), (lit "bob", 2)] }
      (lit "alice") (lit "hi") (by decide)).1 (lit "bob") 2 (by decide) (by decide),
    by decide, by decide⟩

/-- C5: whichever writes fail, `handle(s, m)` makes the same writes as when
none fails, one for every registry entry whose user id differs from `s` and in
the order of the entries, the error of each being what the write returned; and
the server, registry included, is the same afterwards. -/
theorem handle_partial_failure (s : Server) (fails : GoString → Conn → Bool)
    (userId message : GoString) :
    (s.handle fails userId message).1.map (fun w => (w.user, w.conn, w.frame)) =
      (s.handle (fun _ _ => false) userId message).1.map (fun w => (w.user, w.conn, w.frame)) ∧
    (s.handle fails userId message).1 =
      (s.users.filter (fun e => !decide (e.1 = userId))).map
        (fun e => { user := e.1, conn := e.2, frame := broadcastFrame message userId,
                    err := fails e.1 e.2 }) ∧
    (s.handle fails userId message).2 = s := by
  refine ⟨?_, ?_, rfl⟩
  · simp [Server.handle, handleRange_eq, Server.writeText]
  · simp [Server.handle, handleRange_eq, Server.writeText, broadcastFrame]

/-! ## Server.readLoop -/

theorem Cipher_Cipher (p : List Nat) (k : MaskKey) (offset : Nat) :
    Cipher (Cipher p k offset) k offset = p := by
  induction p generalizing offset with
  | nil => rfl
  | cons b rest ih => simp [Cipher, ih, Nat.xor_cancel_right]

theorem Cipher_eq_enumFrom (p : List Nat) (k : MaskKey) (offset : Nat) :
    Cipher p k offset =
      (p.enumFrom offset).map (fun ib => ib.2 ^^^ k ⟨ib.1 % 4, Nat.mod_lt _ (by decide)⟩) := by
  induction p generalizing offset with
  | nil => rfl
  | cons b rest ih => simp [Cipher, ih, List.enumFrom_cons]

theorem xorMasked_eq_Cipher (p : List Nat) (k : MaskKey) : xorMasked p k = Cipher p k 0 := by
  rw [Cipher_eq_enumFrom]; rfl

/-- C7: a text frame with `Masked = true`, `Mask = k` and as payload `p` masked
with `k` is dispatched to `handle` as the message `p`; a text frame with
`Masked = false` is dispatched with its payload as it is. -/
theorem readLoop_unmasks (userId : GoString) (conn : Conn) (p : List Nat) (k : MaskKey)
    (h : Header) (hop : h.OpCode = OpText) :
    (h.Masked = true → h.Mask = k →
      readLoopBody userId conn (.frame { Header := h, Payload := xorMasked p k }) =
        .cont [.goHandle userId p]) ∧
    (h.Masked = false →
      readLoopBody userId conn (.frame { Header := h, Payload := p }) =
        .cont [.goHandle userId p]) := by
  constructor
  · intro hm hk
    simp [readLoopBody, hop, hm, hk, OpText, OpClose, OpPing, xorMasked_eq_Cipher,
      Cipher_Cipher]
  · intro hm
    simp [readLoopBody, hop, hm, OpText, OpClose, OpPing]

/-- C7 on the payload "hi" masked with the key 7, 8, 9, 10: the frame carries
the bytes 111, 97 and the message dispatched is "hi". -/
theorem readLoop_unmasks_witness :
    xorMasked (lit "hi") ![7, 8, 9, 10] = [111, 97] ∧
    readLoopBody (lit "alice") 1
      (.frame { Header := { (NewTextFrame []).Header with Masked := true, Mask := ![7, 8, 9, 10] },
                Payload := xorMasked (lit "hi") ![7, 8, 9, 10] }) =
      .cont [.goHandle (lit "alice") (lit "hi")] :=
  ⟨by decide,
    (readLoop_unmasks (lit "alice") 1 (lit "hi") ![7, 8, 9, 10]
      { (NewTextFrame []).Header with Masked := true, Mask := ![7, 8, 9, 10] } rfl).1 rfl rfl⟩

theorem readLoopBody_ret_iff (userId : GoString) (conn : Conn) (r : ReadResult) :
    (r.ends = true → readLoopBody userId conn r = .ret (r.error userId)) ∧
    (r.ends = false → ∃ acts, readLoopBody userId conn r = .cont acts) := by
  cases r with
  | fail err => simp [ReadResult.ends, readLoopBody, ReadResult.error]
  | frame f =>
    by_cases hc : f.Header.OpCode = OpClose
    · simp [ReadResult.ends, readLoopBody, ReadResult.error, hc]
    · simp only [ReadResult.ends, hc, decide_False, Bool.false_eq_true, false_implies,
        true_and, true_implies]
      unfold readLoopBody
      simp only [hc, if_false]
      split
      · exact ⟨_, rfl⟩
      · split
        · exact ⟨_, rfl⟩
        · exact ⟨_, rfl⟩

theorem readLoop_no_end (userId : GoString) (conn : Conn) (input : List ReadResult)
    (h : ∀ r ∈ input, r.ends = false) : (Server.readLoop userId conn input).2 = .reading := by
  induction input with
  | nil => rfl
  | cons r rest ih =>
    obtain ⟨acts, ha⟩ := (readLoopBody_ret_iff userId conn r).2 (h r (List.mem_cons_self _ _))
    have := ih (fun r' hr' => h r' (List.mem_cons_of_mem _ hr'))
    simp [Server.readLoop, ha, this]

theorem readLoop_at_end (userId : GoString) (conn : Conn) (pre post : List ReadResult)
    (r : ReadResult) (h : ∀ r' ∈ pre, r'.ends = false) (hr : r.ends = true) :
    Server.readLoop userId conn (pre ++ r :: post) =
      ((Server.readLoop userId conn pre).1, .returned (some (r.error userId))) := by
  induction pre with
  | nil =>
    simp [Server.readLoop, (readLoopBody_ret_iff userId conn r).1 hr]
  | cons r0 rest ih =>
    obtain ⟨acts, ha⟩ := (readLoopBody_ret_iff userId conn r0).2 (h r0 (List.mem_cons_self _ _))
    have := ih (fun r' hr' => h r' (List.mem_cons_of_mem _ hr'))
    simp [Server.readLoop, ha, this]

theorem readLoop_returned (userId : GoString) (conn : Conn) (input : List ReadResult)
    (err : Option LoopError) (h : (Server.readLoop userId conn input).2 = .returned err) :
    ∃ pre r post, input = pre ++ r :: post ∧ (∀ r' ∈ pre, r'.ends = false) ∧
      r.ends = true ∧ err = some (r.error userId) := by
  induction input with
  | nil => simp [Server.readLoop] at h
  | cons r0 rest ih =>
    cases hends : r0.ends with
    | true =>
      have hb := (readLoopBody_ret_iff userId conn r0).1 hends
      simp only [Server.readLoop, hb, Outcome.returned.injEq] at h
      exact ⟨[], r0, rest, rfl, by simp, hends, h.symm⟩
    | false =>
      obtain ⟨acts, ha⟩ := (readLoopBody_ret_iff userId conn r0).2 hends
      simp only [Server.readLoop, ha] at h
      obtain ⟨pre, r, post, hin, hpre, hr, he⟩ := ih h
      refine ⟨r0 :: pre, r, post, by simp [hin], ?_, hr, he⟩
      intro r' hr'
      rcases List.mem_cons.mp hr' with h1 | h1
      · exact h1 ▸ hends
      · exact hpre r' h1

/-- C10: in `Server.readLoop` a Close frame makes the loop return an error
without any action; a Ping frame makes it write one Pong frame to the same
connection, dispatch nothing and go on; a Text frame makes it dispatch one
`handle(userId, payload)` and go on; a read error makes it return an error.
The loop returns at the first Close frame or read error, with a non-nil error,
and it does not return before one. -/
theorem readLoop_dispatch (userId : GoString) (conn : Conn) :
    (∀ f : Frame, f.Header.OpCode = OpClose →
      readLoopBody userId conn (.frame f) = .ret (.remoteClose userId)) ∧
    (∀ f : Frame, f.Header.OpCode = OpPing →
      readLoopBody userId conn (.frame f) = .cont [.write conn (NewFrame OpPong true [])]) ∧
    (∀ f : Frame, f.Header.OpCode = OpText →
      readLoopBody userId conn (.frame f) =
        .cont [.goHandle userId
          (if f.Header.Masked then Cipher f.Payload f.Header.Mask 0 else f.Payload)]) ∧
    (∀ err, readLoopBody userId conn (.fail err) = .ret (.readFrameFail userId err)) ∧
    (∀ r rest acts, readLoopBody userId conn r = .cont acts →
      Server.readLoop userId conn (r :: rest) =
        (acts ++ (Server.readLoop userId conn rest).1,
          (Server.readLoop userId conn rest).2)) ∧
    (∀ pre r post, (∀ r' ∈ pre, r'.ends = false) → r.ends = true →
      Server.readLoop userId conn (pre ++ r :: post) =
        ((Server.readLoop userId conn pre).1, .returned (some (r.error userId)))) ∧
    (∀ input err, (Server.readLoop userId conn input).2 = .returned err →
      err ≠ none ∧ ∃ r ∈ input, r.ends = true) ∧
    (∀ input, (∀ r ∈ input, r.ends = false) →
      (Server.readLoop userId conn input).2 = .reading) := by
  refine ⟨?_, ?_, ?_, ?_, ?_, ?_, ?_, ?_⟩
  · intro f h
    simp [readLoopBody, h]
  · intro f h
    simp [readLoopBody, h, OpPing, OpClose]
  · intro f h
    simp [readLoopBody, h, OpText, OpPing, OpClose]
  · intro err
    rfl
  · intro r rest acts h
    simp [Server.readLoop, h]
  · exact fun pre r post h hr => readLoop_at_end userId conn pre post r h hr
  · intro input err h
    obtain ⟨pre, r, post, hin, _, hr, he⟩ := readLoop_returned userId conn input err h
    refine ⟨by simp [he], r, ?_, hr⟩
    simp [hin]
  · exact fun input h => readLoop_no_end userId conn input h

/-- C10 on the reads Ping, Text "hi", Close, Text "yo" of alice: one Pong is
written, "hi" is dispatched, the loop returns the remote-close error and the
frame after the Close is never handled. -/
theorem readLoop_dispatch_witness :
    Server.readLoop (lit "alice") 1
      ([.frame (NewFrame OpPing true []), .frame (NewTextFrame (lit "hi"))] ++
        .frame (NewFrame OpClose true []) :: [.frame (NewTextFrame (lit "yo"))]) =
      ([.write 1 (NewFrame OpPong true []), .goHandle (lit "alice") (lit "hi")],
        .returned (some (.remoteClose (lit "alice")))) :=
  ((readLoop_dispatch (lit "alice") 1).2.2.2.2.2.1
    [.frame (NewFrame OpPing true []), .frame (NewTextFrame (lit "hi"))]
    (.frame (NewFrame OpClose true [])) [.frame (NewTextFrame (lit "yo"))]
    (by decide) (by decide)).trans (by decide)

/-! ## The handler of Server.Start and Server.Shutdown -/

theorem closeCall_mono (log : List (Conn × CloseSite)) (c : Option Conn) (site : CloseSite)
    (x : Conn × CloseSite) (h : x ∈ log) : x ∈ closeCall log c site := by
  cases c with
  | none => exact h
  | some c => exact List.mem_append_left _ h

theorem shutdownRange_mono (users : Users) (ks : List GoString) (log : List (Conn × CloseSite))
    (x : Conn × CloseSite) (h : x ∈ log) : x ∈ shutdownRange users log ks := by
  induction ks generalizing log with
  | nil => exact h
  | cons k rest ih => exact ih _ (closeCall_mono _ _ _ _ h)

theorem step_closeLog_mono (st : Sys) (e : Event) (x : Conn × CloseSite)
    (h : x ∈ st.closeLog) : x ∈ (st.step e).closeLog := by
  cases e with
  | connect u c =>
    simp only [Sys.step, Sys.register, Server.addUser]
    split
    · exact closeCall_mono _ _ _ _ h
    · exact h
  | loopExit u c =>
    simp only [Sys.step, Sys.closing]
    exact closeCall_mono _ _ _ _ h
  | shutdown =>
    simp only [Sys.step, Sys.Shutdown]
    split
    · exact h
    · exact shutdownRange_mono _ _ _ _ h

theorem run_closeLog_mono (st : Sys) (es : List Event) (x : Conn × CloseSite)
    (h : x ∈ st.closeLog) : x ∈ (st.run es).closeLog := by
  induction es generalizing st with
  | nil => exact h
  | cons e rest ih => exact ih _ (step_closeLog_mono st e x h)

theorem run_connects (u : GoString) (cs : List Conn) (st : Sys) (c0 : Conn)
    (h : st.server.users = [(u, c0)]) :
    (st.run (cs.map (Event.connect u))).server.users =
        [(u, (c0 :: cs).getLast (List.cons_ne_nil _ _))] ∧
    ∀ c ∈ (c0 :: cs).dropLast,
      (c, CloseSite.kickoff) ∈ (st.run (cs.map (Event.connect u))).closeLog := by
  induction cs generalizing st c0 with
  | nil => simp [Sys.run, h]
  | cons c1 rest ih =>
    have hu : (st.step (.connect u c1)).server.users = [(u, c1)] := by
      simp [Sys.step, Sys.register, Server.addUser, h, mapSet]
    have hl : (c0, CloseSite.kickoff) ∈ (st.step (.connect u c1)).closeLog := by
      simp [Sys.step, Sys.register, Server.addUser, h, mapGet, closeCall]
    obtain ⟨h1, h2⟩ := ih (st.step (.connect u c1)) c1 hu
    refine ⟨by simpa [Sys.run] using h1, ?_⟩
    intro c hc
    simp only [List.map_cons, Sys.run]
    rw [List.dropLast_cons_of_ne_nil (List.cons_ne_nil _ _)] at hc
    rcases List.mem_cons.mp hc with hc | hc
    · subst hc
      exact run_closeLog_mono _ _ _ hl
    · exact h2 c hc

/-- C2: from the empty registry, after the connections `cs` (one at least) have
registered in turn under the same user id `u`, each through step 3 of the
handler, the registry is the single entry of `u` with the last connection, and
`Close` has been called on every earlier one. -/
theorem reconnect_single_entry (id addr u : GoString) (cs : List Conn) (hne : cs ≠ []) :
    ((Sys.init id addr).run (cs.map (Event.connect u))).server.users =
        [(u, cs.getLast hne)] ∧
    ∀ c ∈ cs.dropLast,
      (c, CloseSite.kickoff) ∈ ((Sys.init id addr).run (cs.map (Event.connect u))).closeLog := by
  cases cs with
  | nil => exact absurd rfl hne
  | cons c0 rest =>
    have hu : ((Sys.init id addr).step (.connect u c0)).server.users = [(u, c0)] := by
      simp [Sys.step, Sys.register, Server.addUser, Sys.init, NewServer, mapSet]
    exact run_connects u rest _ c0 hu

/-- C2 for alice connecting with 1, then 2, then 3: the registry holds alice
with 3, and 1 and 2 have been closed. -/
theorem reconnect_single_entry_witness :
    ((Sys.init [] []).run ([1, 2, 3].map (Event.connect (lit "alice")))).server.users =
        [(lit "alice", 3)] ∧
    ∀ c ∈ [1, 2],
      (c, CloseSite.kickoff) ∈
        ((Sys.init [] []).run ([1, 2, 3].map (Event.connect (lit "alice")))).closeLog :=
  reconnect_single_entry [] [] (lit "alice") [1, 2, 3] (by decide)

/-- C3, the code at the input of the claim: alice connects with 1, reconnects
with 2 (the registry then maps alice to 2), and the read loop of 1 returns;
step 5 of the handler of 1 calls `delUser("alice")`, which removes the entry
of connection 2, and the registry is left empty. -/
theorem closing_removes_newer_entry :
    (Sys.init [] []).valid
      [.connect (lit "alice") 1, .connect (lit "alice") 2, .loopExit (lit "alice") 1] ∧
    mapGet ((Sys.init [] []).run
      [.connect (lit "alice") 1, .connect (lit "alice") 2]).server.users (lit "alice") =
        (some 2, true) ∧
    mapGet ((Sys.init [] []).run
      [.connect (lit "alice") 1, .connect (lit "alice") 2,
        .loopExit (lit "alice") 1]).server.users (lit "alice") = (none, false) := by
  decide

/-! ## Close calls over the life of a connection -/

theorem mapGet_cases (m : Users) (k : GoString) :
    mapGet m k = (none, false) ∨ ∃ o, mapGet m k = (some o, true) := by
  induction m with
  | nil => exact Or.inl rfl
  | cons e rest ih =>
    obtain ⟨k0, v0⟩ := e
    by_cases h0 : k0 = k
    · exact Or.inr ⟨v0, by simp [mapGet, h0]⟩
    · simpa [mapGet, h0] using ih

theorem mapSet_of_absent (m : Users) (k : GoString) (v : Conn)
    (h : mapGet m k = (none, false)) : mapSet m k v = m ++ [(k, v)] := by
  induction m with
  | nil => rfl
  | cons e rest ih =>
    obtain ⟨k0, v0⟩ := e
    by_cases h0 : k0 = k
    · simp [mapGet, h0] at h
    · simp only [mapGet, h0, if_false] at h
      simp [mapSet, h0, ih h]

theorem mapGet_split (m : Users) (k : GoString) (o : Conn)
    (h : mapGet m k = (some o, true)) :
    ∃ pre post : Users, m = pre ++ (k, o) :: post ∧
      (∀ v, mapSet m k v = pre ++ (k, v) :: post) ∧ mapDelete m k = pre ++ post := by
  induction m with
  | nil => simp [mapGet] at h
  | cons e rest ih =>
    obtain ⟨k0, v0⟩ := e
    by_cases h0 : k0 = k
    · subst h0
      have : v0 = o := by simpa [mapGet] using h
      subst this
      exact ⟨[], rest, rfl, fun v => by simp [mapSet], by simp [mapDelete]⟩
    · simp only [mapGet, h0, if_false] at h
      obtain ⟨pre, post, h1, h2, h3⟩ := ih h
      refine ⟨(k0, v0) :: pre, post, by simp [h1], fun v => ?_, ?_⟩
      · simp [mapSet, h0, h2 v]
      · simp [mapDelete, h0, h3]

theorem mapDelete_conns_sublist (m : Users) (k : GoString) :
    (mapDelete m k).conns.Sublist m.conns := by
  rcases mapGet_cases m k with h | ⟨o, h⟩
  · rw [mapDelete_of_absent m k ((mapGet_absent_iff m k).mp h)]
  · obtain ⟨pre, post, h1, _, h3⟩ := mapGet_split m k o h
    rw [h3, h1]
    simp only [Users.conns, List.map_append, List.map_cons]
    exact List.Sublist.append (List.Sublist.refl _) (List.sublist_cons_self _ _)

theorem init_inv (id addr : GoString) : (Sys.init id addr).Inv := by
  constructor <;> simp [Sys.init, NewServer, Users.WF, Users.keys, Users.conns, Sys.known,
    Sys.closeCountAt]

theorem register_absent (st : Sys) (u : GoString) (c : Conn)
    (h : mapGet st.server.users u = (none, false)) :
    st.register u c =
      { st with
        server := { st.server with users := st.server.users ++ [(u, c)] }
        reading := st.reading ++ [(u, c)] } := by
  simp [Sys.register, Server.addUser, h, mapSet_of_absent _ _ _ h]

theorem register_present (st : Sys) (u : GoString) (c o : Conn) (pre post : Users)
    (h : mapGet st.server.users u = (some o, true))
    (hset : mapSet st.server.users u c = pre ++ (u, c) :: post) :
    st.register u c =
      { st with
        server := { st.server with users := pre ++ (u, c) :: post }
        closeLog := st.closeLog ++ [(o, .kickoff)]
        reading := st.reading ++ [(u, c)] } := by
  simp [Sys.register, Server.addUser, h, hset, closeCall]

theorem known_register (reading closed : List (GoString × Conn)) (u : GoString) (c : Conn) :
    ((reading ++ [(u, c)]).map Prod.snd ++ closed.map Prod.snd).Perm
      (c :: (reading.map Prod.snd ++ closed.map Prod.snd)) := by
  simp only [List.map_append, List.map_cons, List.map_nil, List.append_assoc,
    List.singleton_append]
  exact List.perm_middle

theorem register_inv (st : Sys) (u : GoString) (c : Conn) (hinv : st.Inv)
    (hfresh : c ∉ st.known) : (st.register u c).Inv := by
  have hcn : c ∉ st.server.users.conns := fun hc => hfresh (hinv.conns_known c hc)
  have hperm := known_register st.reading st.closed u c
  have hknown : ∀ x, x ∈ (st.reading ++ [(u, c)]).map Prod.snd ++ st.closed.map Prod.snd ↔
      x = c ∨ x ∈ st.known := by
    intro x
    rw [hperm.mem_iff]
    simp [Sys.known]
  have hnd : ((st.reading ++ [(u, c)]).map Prod.snd ++ st.closed.map Prod.snd).Nodup := by
    rw [hperm.nodup_iff]
    exact List.nodup_cons.mpr ⟨hfresh, hinv.known_nodup⟩
  rcases mapGet_cases st.server.users u with h | ⟨o, h⟩
  · rw [register_absent st u c h]
    refine { wf := ?_, conns_nodup := ?_, known_nodup := hnd, conns_known := ?_,
             closing_count := hinv.closing_count, kickoff_le := hinv.kickoff_le,
             kickoff_zero := ?_, shutdown_le := hinv.shutdown_le,
             shutdown_zero := hinv.shutdown_zero }
    · show Users.WF (st.server.users ++ [(u, c)])
      rw [← mapSet_of_absent _ _ c h]
      exact mapSet_wf _ _ _ hinv.wf
    · show (Users.conns (st.server.users ++ [(u, c)])).Nodup
      simp only [Users.conns, List.map_append, List.map_cons, List.map_nil]
      exact List.Nodup.append hinv.conns_nodup (List.nodup_singleton c)
        (by simpa [Users.conns] using hcn)
    · intro x hx
      have hx' : x ∈ st.server.users.conns ∨ x = c := by
        simpa [Users.conns] using hx
      refine (hknown x).mpr ?_
      rcases hx' with hx' | hx'
      · exact Or.inr (hinv.conns_known x hx')
      · exact Or.inl hx'
    · intro x hx
      rcases hx with hx | hx
      · have hx' : x ∈ st.server.users.conns ∨ x = c := by
          simpa [Users.conns] using hx
        rcases hx' with hx' | hx'
        · exact hinv.kickoff_zero x (Or.inl hx')
        · exact hinv.kickoff_zero x (Or.inr (hx' ▸ hfresh))
      · exact hinv.kickoff_zero x (Or.inr (fun hc => hx ((hknown x).mpr (Or.inr hc))))
  · obtain ⟨pre, post, h1, h2, _⟩ := mapGet_split st.server.users u o h
    rw [register_present st u c o pre post h (h2 c)]
    have hconns : st.server.users.conns = pre.conns ++ o :: post.conns := by
      rw [h1]; simp [Users.conns]
    have hoc : o ∈ st.server.users.conns := by rw [hconns]; simp
    have hok : o ∈ st.known := hinv.conns_known o hoc
    have hoc_ne : o ≠ c := fun hc => hfresh (hc ▸ hok)
    have hnd0 : (pre.conns ++ o :: post.conns).Nodup := hconns ▸ hinv.conns_nodup
    have hmem : ∀ x, x ∈ Users.conns (pre ++ (u, c) :: post) →
        x ≠ o ∧ (x = c ∨ x ∈ st.server.users.conns) := by
      intro x hx
      have hx' : x ∈ pre.conns ∨ x = c ∨ x ∈ post.conns := by
        simpa [Users.conns] using hx
      have hnd1 := List.nodup_append.mp hnd0
      have hnd2 := List.nodup_cons.mp hnd1.2.1
      rcases hx' with hx' | hx' | hx'
      · refine ⟨?_, Or.inr (by rw [hconns]; simp [hx'])⟩
        intro hc
        exact hnd1.2.2 hx' (by simp [hc])
      · exact ⟨hx' ▸ (Ne.symm hoc_ne), Or.inl hx'⟩
      · refine ⟨?_, Or.inr (by rw [hconns]; simp [hx'])⟩
        intro hc
        exact hnd2.1 (hc ▸ hx')
    have hcount : ∀ x, List.count (x, CloseSite.kickoff) (st.closeLog ++ [(o, CloseSite.kickoff)]) =
        List.count (x, CloseSite.kickoff) st.closeLog + if x = o then 1 else 0 := by
      intro x
      by_cases hxo : x = o
      · subst hxo; simp
      · have : ¬ o = x := fun hc => hxo hc.symm
        simp [List.count_cons, hxo, this]
    refine { wf := ?_, conns_nodup := ?_, known_nodup := hnd, conns_known := ?_,
             closing_count := ?_, kickoff_le := ?_,
             kickoff_zero := ?_, shutdown_le := ?_, shutdown_zero := ?_ }
    · show Users.WF (pre ++ (u, c) :: post)
      rw [← h2 c]
      exact mapSet_wf _ _ _ hinv.wf
    · show (Users.conns (pre ++ (u, c) :: post)).Nodup
      have hcp : c ∉ pre.conns ∧ c ∉ post.conns := by
        rw [hconns] at hcn
        simp only [List.mem_append, List.mem_cons, not_or] at hcn
        exact ⟨hcn.1, hcn.2.2⟩
      have hnd1 := List.nodup_append.mp hnd0
      have hnd2 := List.nodup_cons.mp hnd1.2.1
      simp only [Users.conns, List.map_append, List.map_cons]
      refine List.nodup_append.mpr ⟨hnd1.1, List.nodup_cons.mpr ⟨hcp.2, hnd2.2⟩, ?_⟩
      intro a ha hb
      rcases List.mem_cons.mp hb with hb | hb
      · exact hcp.1 (hb ▸ ha)
      · exact hnd1.2.2 ha (List.mem_cons_of_mem _ hb)
    · intro x hx
      refine (hknown x).mpr ?_
      rcases (hmem x hx).2 with hx' | hx'
      · exact Or.inl hx'
      · exact Or.inr (hinv.conns_known x hx')
    · intro x
      have := hinv.closing_count x
      simp only [Sys.closeCountAt] at this ⊢
      simp [List.count_cons, this]
    · intro x
      have h0 := hinv.kickoff_le x
      simp only [Sys.closeCountAt] at h0 ⊢
      rw [hcount x]
      by_cases hxo : x = o
      · have hz := hinv.kickoff_zero x (Or.inl (hxo ▸ hoc))
        simp only [Sys.closeCountAt] at hz
        rw [hz]
        simp [hxo]
      · simp [hxo]; exact h0
    · intro x hx
      simp only [Sys.closeCountAt]
      rw [hcount x]
      rcases hx with hx | hx
      · obtain ⟨hne, hx'⟩ := hmem x hx
        have hz : st.closeCountAt x .kickoff = 0 := by
          rcases hx' with hx' | hx'
          · exact hinv.kickoff_zero x (Or.inr (hx' ▸ hfresh))
          · exact hinv.kickoff_zero x (Or.inl hx')
        simp only [Sys.closeCountAt] at hz
        simp [hne, hz]
      · have hxk : x ∉ st.known := fun hc => hx ((hknown x).mpr (Or.inr hc))
        have hne : x ≠ o := fun hc => hxk (hc ▸ hok)
        have hz := hinv.kickoff_zero x (Or.inr hxk)
        simp only [Sys.closeCountAt] at hz
        simp [hne, hz]
    · intro x
      have := hinv.shutdown_le x
      simp only [Sys.closeCountAt] at this ⊢
      simp [List.count_cons, this]
    · intro honce x
      have := hinv.shutdown_zero honce x
      simp only [Sys.closeCountAt] at this ⊢
      simp [List.count_cons, this]

theorem perm_cons_dropHandler (l : List (GoString × Conn)) (h : GoString × Conn)
    (hmem : h ∈ l) : l.Perm (h :: dropHandler l h) := by
  induction l with
  | nil => simp at hmem
  | cons x rest ih =>
    by_cases hx : x = h
    · simp [dropHandler, hx]
    · have hr : h ∈ rest := by
        rcases List.mem_cons.mp hmem with h1 | h1
        · exact absurd h1.symm hx
        · exact h1
      simp only [dropHandler, hx, if_false]
      exact ((ih hr).cons x).trans (List.Perm.swap h x _)

theorem known_closing (reading closed : List (GoString × Conn)) (u : GoString) (c : Conn)
    (h : (u, c) ∈ reading) :
    ((dropHandler reading (u, c)).map Prod.snd ++ (closed ++ [(u, c)]).map Prod.snd).Perm
      (reading.map Prod.snd ++ closed.map Prod.snd) := by
  have h1 : (reading.map Prod.snd).Perm (c :: (dropHandler reading (u, c)).map Prod.snd) := by
    simpa using (perm_cons_dropHandler reading (u, c) h).map Prod.snd
  have h2 : (reading.map Prod.snd ++ closed.map Prod.snd).Perm
      (c :: ((dropHandler reading (u, c)).map Prod.snd ++ closed.map Prod.snd)) :=
    h1.append_right _
  refine List.Perm.trans ?_ h2.symm
  simp only [List.map_append, List.map_cons, List.map_nil, ← List.append_assoc]
  exact List.perm_append_singleton _ _

theorem closing_inv (st : Sys) (u : GoString) (c : Conn) (hinv : st.Inv)
    (hmem : (u, c) ∈ st.reading) : (st.closing u c).Inv := by
  have hperm := known_closing st.reading st.closed u c hmem
  have hsub := mapDelete_conns_sublist st.server.users u
  have hknown : ∀ x, x ∈ (st.closing u c).known ↔ x ∈ st.known := fun x => hperm.mem_iff
  refine { wf := mapDelete_wf _ _ hinv.wf, conns_nodup := hinv.conns_nodup.sublist hsub,
           known_nodup := hperm.nodup_iff.mpr hinv.known_nodup, conns_known := ?_,
           closing_count := ?_, kickoff_le := ?_,
           kickoff_zero := ?_, shutdown_le := ?_, shutdown_zero := ?_ }
  · intro x hx
    exact (hknown x).mpr (hinv.conns_known x (hsub.subset hx))
  · intro x
    have := hinv.closing_count x
    simp only [Sys.closeCountAt] at this
    simp only [Sys.closeCountAt, Sys.closing, closeCall, List.map_append, List.map_cons,
      List.map_nil, List.count_append, this]
    by_cases hx : c = x
    · simp [hx]
    · simp [List.count_cons, hx]
  · intro x
    have := hinv.kickoff_le x
    simp only [Sys.closeCountAt] at this
    simp [Sys.closeCountAt, Sys.closing, closeCall, List.count_cons, this]
  · intro x hx
    have hx' : x ∈ st.server.users.conns ∨ x ∉ st.known := by
      rcases hx with hx | hx
      · exact Or.inl (hsub.subset hx)
      · exact Or.inr (fun hc => hx ((hknown x).mpr hc))
    have := hinv.kickoff_zero x hx'
    simp only [Sys.closeCountAt] at this
    simp [Sys.closeCountAt, Sys.closing, closeCall, List.count_cons, this]
  · intro x
    have := hinv.shutdown_le x
    simp only [Sys.closeCountAt] at this
    simp [Sys.closeCountAt, Sys.closing, closeCall, List.count_cons, this]
  · intro honce x
    have := hinv.shutdown_zero honce x
    simp only [Sys.closeCountAt] at this
    simp [Sys.closeCountAt, Sys.closing, closeCall, List.count_cons, this]

theorem shutdownRange_eq (users : Users) (ks : List GoString) (log : List (Conn × CloseSite)) :
    shutdownRange users log ks =
      log ++ (ks.filterMap (fun i => (mapGet users i).1)).map (fun c => (c, CloseSite.shutdown)) := by
  induction ks generalizing log with
  | nil => simp [shutdownRange]
  | cons k rest ih =>
    cases hk : (mapGet users k).1 with
    | none => simp [shutdownRange, ih, hk, closeCall]
    | some v => simp [shutdownRange, ih, hk, closeCall]

theorem keys_lookup_eq_conns (users : Users) (hwf : users.WF) (l : Users)
    (h : ∀ e ∈ l, e ∈ users) :
    (l.map Prod.fst).filterMap (fun i => (mapGet users i).1) = l.map Prod.snd := by
  induction l with
  | nil => rfl
  | cons e rest ih =>
    obtain ⟨k, v⟩ := e
    have hg := mapGet_of_mem users k v hwf (h (k, v) (List.mem_cons_self _ _))
    have := ih (fun e he => h e (List.mem_cons_of_mem _ he))
    simp [hg, this]

theorem count_shutdown_map (cs : List Conn) (x : Conn) (site : CloseSite) :
    List.count (x, site) (cs.map (fun c => (c, CloseSite.shutdown))) =
      if site = CloseSite.shutdown then cs.count x else 0 := by
  induction cs with
  | nil => simp
  | cons c rest ih =>
    by_cases hs : site = CloseSite.shutdown
    · subst hs
      simp only [if_true] at ih
      by_cases hc : c = x
      · simp [List.count_cons, ih, hc]
      · simp [List.count_cons, ih, hc]
    · have hs' : ¬ CloseSite.shutdown = site := fun h => hs h.symm
      simp [List.count_cons, ih, hs, hs']

theorem shutdown_inv (st : Sys) (hinv : st.Inv) : st.Shutdown.Inv := by
  cases honce : st.server.once with
  | true => simpa [Sys.Shutdown, honce] using hinv
  | false =>
    have hlog : st.Shutdown.closeLog =
        st.closeLog ++ st.server.users.conns.map (fun c => (c, CloseSite.shutdown)) := by
      simp only [Sys.Shutdown, honce, Bool.false_eq_true, if_false, shutdownRange_eq]
      have := keys_lookup_eq_conns st.server.users hinv.wf st.server.users (fun _ h => h)
      simp only [Users.keys, Users.conns] at this ⊢
      rw [this]
    have hst : st.Shutdown = { st with server := { st.server with once := true }
                                       closeLog := st.Shutdown.closeLog } := by
      simp [Sys.Shutdown, honce]
    have hcnt : ∀ x site, st.Shutdown.closeCountAt x site =
        st.closeCountAt x site +
          if site = CloseSite.shutdown then st.server.users.conns.count x else 0 := by
      intro x site
      simp only [Sys.closeCountAt, hlog, List.count_append, count_shutdown_map]
    have hk : st.Shutdown.known = st.known := by rw [hst]; rfl
    have hu : st.Shutdown.server.users = st.server.users := by rw [hst]
    refine { wf := hu ▸ hinv.wf, conns_nodup := hu ▸ hinv.conns_nodup,
             known_nodup := hk ▸ hinv.known_nodup, conns_known := ?_,
             closing_count := ?_, kickoff_le := ?_,
             kickoff_zero := ?_, shutdown_le := ?_, shutdown_zero := ?_ }
    · intro x hx
      rw [hk]; rw [hu] at hx
      exact hinv.conns_known x hx
    · intro x
      rw [hcnt x .closing]
      have : st.Shutdown.closed = st.closed := by rw [hst]
      simp [this, hinv.closing_count x]
    · intro x
      rw [hcnt x .kickoff]
      simpa using hinv.kickoff_le x
    · intro x hx
      rw [hcnt x .kickoff]
      rw [hk, hu] at hx
      simpa using hinv.kickoff_zero x hx
    · intro x
      rw [hcnt x .shutdown, hinv.shutdown_zero honce x]
      simpa using List.nodup_iff_count_le_one.mp hinv.conns_nodup x
    · intro h
      rw [hst] at h
      simp at h

theorem step_inv (st : Sys) (e : Event) (hinv : st.Inv) (hen : st.enabled e) :
    (st.step e).Inv := by
  cases e with
  | connect u c => exact register_inv st u c hinv hen.2
  | loopExit u c => exact closing_inv st u c hinv hen
  | shutdown => exact shutdown_inv st hinv

theorem run_inv (st : Sys) (es : List Event) (hinv : st.Inv) (hv : st.valid es) :
    (st.run es).Inv := by
  induction es generalizing st with
  | nil => exact hinv
  | cons e rest ih => exact ih _ (step_inv st e hinv hv.1) hv.2

theorem closeCount_eq_sum (log : List (Conn × CloseSite)) (c : Conn) :
    (log.filter (fun e => decide (e.1 = c))).length =
      log.count (c, CloseSite.kickoff) + log.count (c, CloseSite.closing) +
        log.count (c, CloseSite.shutdown) := by
  induction log with
  | nil => rfl
  | cons e rest ih =>
    obtain ⟨c0, site⟩ := e
    by_cases hc : c0 = c
    · cases site <;> simp [List.filter_cons, List.count_cons, hc, ih] <;> omega
    · simp [List.filter_cons, List.count_cons, hc, ih]

/-- C8 as stated fails: alice connects with 1 and reconnects with 2, so that
`Close` is called on 1 at the kick-off; when the read loop of 1 returns, step 5
calls `Close` on 1 again: two `Close` calls on a connection that has reached
its closing step. -/
theorem close_exactly_once_fails :
    ¬ ∀ evs : List Event, (Sys.init [] []).valid evs →
        ∀ u c, (u, c) ∈ ((Sys.init [] []).run evs).closed →
          ((Sys.init [] []).run evs).closeCount c = 1 := by
  intro h
  have h2 := h [.connect (lit "alice") 1, .connect (lit "alice") 2, .loopExit (lit "alice") 1]
    (by decide) (lit "alice") 1 (by decide)
  revert h2
  decide

/-- C8 amended: after any sequence of events that can happen, a connection that
has reached its closing step has had exactly one `Close` call from that step,
at most one from a kick-off and at most one from `Shutdown`; these are all its
`Close` calls, so it has been closed at least once and at most three times. -/
theorem close_calls_bounded (id addr : GoString) (evs : List Event)
    (hv : (Sys.init id addr).valid evs) (u : GoString) (c : Conn)
    (hc : (u, c) ∈ ((Sys.init id addr).run evs).closed) :
    ((Sys.init id addr).run evs).closeCountAt c .closing = 1 ∧
    ((Sys.init id addr).run evs).closeCountAt c .kickoff ≤ 1 ∧
    ((Sys.init id addr).run evs).closeCountAt c .shutdown ≤ 1 ∧
    ((Sys.init id addr).run evs).closeCount c =
      ((Sys.init id addr).run evs).closeCountAt c .kickoff +
      ((Sys.init id addr).run evs).closeCountAt c .closing +
      ((Sys.init id addr).run evs).closeCountAt c .shutdown ∧
    1 ≤ ((Sys.init id addr).run evs).closeCount c ∧
    ((Sys.init id addr).run evs).closeCount c ≤ 3 := by
  have hinv := run_inv _ evs (init_inv id addr) hv
  have hsum := closeCount_eq_sum ((Sys.init id addr).run evs).closeLog c
  have hmem : c ∈ ((Sys.init id addr).run evs).closed.map Prod.snd :=
    List.mem_map.mpr ⟨(u, c), hc, rfl⟩
  have hnd : (((Sys.init id addr).run evs).closed.map Prod.snd).Nodup :=
    (List.nodup_append.mp hinv.known_nodup).2.1
  have h1 : ((Sys.init id addr).run evs).closeCountAt c .closing = 1 := by
    rw [hinv.closing_count c]
    exact List.count_eq_one_of_mem hnd hmem
  have h2 := hinv.kickoff_le c
  have h3 := hinv.shutdown_le c
  simp only [Sys.closeCount, Sys.closeCountAt] at hsum h1 h2 h3 ⊢
  refine ⟨h1, h2, h3, hsum, ?_, ?_⟩ <;> omega

/-- C8 amended, where the bound is reached: alice connects with 1, `Shutdown`
runs, alice reconnects with 2 and the read loop of 1 returns; connection 1 has
then had three `Close` calls, one from each place. -/
theorem close_calls_bounded_witness :
    ((Sys.init [] []).run [.connect (lit "alice") 1, .shutdown, .connect (lit "alice") 2,
        .loopExit (lit "alice") 1]).closeCount 1 = 3 ∧
    ((Sys.init [] []).run [.connect (lit "alice") 1, .shutdown, .connect (lit "alice") 2,
        .loopExit (lit "alice") 1]).closeCountAt 1 .closing = 1 :=
  ⟨by decide,
    (close_calls_bounded [] [] [.connect (lit "alice") 1, .shutdown, .connect (lit "alice") 2,
        .loopExit (lit "alice") 1] (by decide) (lit "alice") 1 (by decide)).1⟩

/-! ## The client: read deadline under the heartbeat loop -/

theorem run_append_tick (h : handler) (evs : List ClientEvent) (now : Nat) :
    h.run (evs ++ [.tick now]) = (h.run evs).map (fun h1 => h1.heartbeatTick now) := by
  induction evs generalizing h with
  | nil => rfl
  | cons e rest ih =>
    cases e with
    | frame t f =>
      cases hb : h.readLoopBody t f with
      | none => simp [handler.run, hb]
      | some h1 => simp [handler.run, hb, ih]
    | tick t => simp [handler.run, ih]

theorem pongTimes_silentTicks (h : handler) (n : Nat) : pongTimes (silentTicks h n) = [] := by
  induction n with
  | zero => rfl
  | succ n ih =>
    have : ∀ (evs : List ClientEvent) (t : Nat), pongTimes evs = [] →
        pongTimes (evs ++ [.tick t]) = [] := by
      intro evs t
      induction evs with
      | nil => intro _; rfl
      | cons e rest ih2 =>
        cases e with
        | frame t0 f =>
          by_cases hp : f.Header.OpCode = OpPong
          · simp [pongTimes, hp]
          · simpa [pongTimes, hp] using ih2
        | tick t0 => simpa [pongTimes] using ih2
    simp only [silentTicks, List.range_succ, List.map_append, List.map_cons, List.map_nil]
    exact this _ _ ih

theorem run_silentTicks (h : handler) (n : Nat) :
    h.run (silentTicks h (n + 1)) =
      some { h with readDeadline := some (h.heartbeat * (n + 1) + Second * 10) } := by
  have hh : ∀ m, (h.run (silentTicks h m)).map (fun h1 => h1.heartbeat) = some h.heartbeat ∧
      (h.run (silentTicks h m)).map (fun h1 => h1.recv) = some h.recv := by
    intro m
    induction m with
    | zero => exact ⟨rfl, rfl⟩
    | succ m ih =>
      simp only [silentTicks, List.range_succ, List.map_append, List.map_cons, List.map_nil,
        run_append_tick] at ih ⊢
      cases hr : h.run (List.map (fun i => ClientEvent.tick (h.heartbeat * (i + 1)))
          (List.range m)) with
      | none => simp [hr] at ih
      | some h1 =>
        simp only [hr, Option.map_some', Option.some.injEq] at ih
        simp [handler.heartbeatTick, ih.1, ih.2]
  simp only [silentTicks, List.range_succ, List.map_append, List.map_cons, List.map_nil,
    run_append_tick]
  have := hh n
  simp only [silentTicks] at this
  cases hr : h.run (List.map (fun i => ClientEvent.tick (h.heartbeat * (i + 1)))
      (List.range n)) with
  | none => simp [hr] at this
  | some h1 =>
    simp only [hr, Option.map_some', Option.some.injEq] at this
    obtain ⟨h1a, h1b⟩ := this
    cases h1
    simp_all [handler.heartbeatTick]

/-- The client with a silent peer never times out: after the first `n + 1`
ticks of the heartbeat loop and no frame at all, the read deadline lies after
the next tick, so a `ReadFrame` waiting at any instant up to that tick does not
fail with a timeout. -/
theorem silent_peer_never_times_out (n now : Nat) (hnow : now ≤ NewHandler.heartbeat * (n + 2)) :
    pongTimes (silentTicks (NewHandler.readLoopStart 0) (n + 1)) = [] ∧
    ((NewHandler.readLoopStart 0).run (silentTicks (NewHandler.readLoopStart 0) (n + 1))).map
      (fun h => h.readTimedOut now) = some false := by
  refine ⟨pongTimes_silentTicks _ _, ?_⟩
  rw [run_silentTicks]
  simp only [Option.map_some', handler.readTimedOut, Option.some.injEq, decide_eq_false_iff_not,
    not_lt]
  simp only [NewHandler, handler.readLoopStart, Second] at hnow ⊢
  omega

/-- C9, the code at a silent peer: the handler has the heartbeat of 5 s, the
read loop starts at the instant 0 and no frame ever arrives, while the
heartbeat loop ticks at 5 s, 10 s and 15 s. Each tick sets the read deadline to
10 s later, so after them the deadline is 25 s, which is more than 3 heartbeats
after the start, and at 16 s, after more than 3 heartbeats of silence, the
waiting `ReadFrame` has not timed out. -/
theorem heartbeat_tick_extends_deadline :
    NewHandler.heartbeat = Second * 5 ∧
    (NewHandler.readLoopStart 0).readDeadline = some (NewHandler.heartbeat * 3) ∧
    pongTimes [.tick (Second * 5), .tick (Second * 10), .tick (Second * 15)] = [] ∧
    ((NewHandler.readLoopStart 0).run
      [.tick (Second * 5), .tick (Second * 10), .tick (Second * 15)]).map
        (fun h => h.readDeadline) = some (some (Second * 25)) ∧
    0 + NewHandler.heartbeat * 3 < Second * 16 ∧
    ((NewHandler.readLoopStart 0).run
      [.tick (Second * 5), .tick (Second * 10), .tick (Second * 15)]).map
        (fun h => h.readTimedOut (Second * 16)) = some false := by
  decide

end LiveIM
